import Mathlib

/-!
# Tree digest pipeline of `BT.go`

A shallow embedding of the digest pipeline of `src/BT.go`
(`sumFiles`, `MD5All`, `hash`) together with the properties its
specification states about it.

Modelling conventions.

* A Go `string` is a sequence of bytes (`GoString`); `[]byte(s)` is the identity.
* `md5.Sum` is a collaborator from the standard library: it is a parameter
  `md5Sum : GoString → Digest` of every definition that calls it.
* `ioutil.ReadFile` is the file system: a parameter `readFile`.
* `filepath.Walk` calls the callback once per entry, in its traversal order, and
  stops at the first call that returns a non-nil error, which it returns.  The
  entries it would visit are given as a list of `Visit`s.
* The result channel `c` is the sequence of values a receiver gets from it before
  it is closed; the buffered channel `errc` is the single value sent on it.
* `for path := range m` enumerates the keys of `m` in an unspecified order: the
  order is a parameter `rangeOrder`.
-/

namespace BT

/-! ## Data model -/

/-- One byte. -/
abbrev Byte := Fin 256

/-- A Go `string`: an immutable sequence of bytes. -/
abbrev GoString := List Byte

/-- The constant `md5.Size`. -/
def md5Size : Nat := 16

/-- The type `[md5.Size]byte`. -/
structure Digest where
  bytes : List Byte
  size_eq : bytes.length = md5Size
deriving DecidableEq

/-- The zero value of `[md5.Size]byte`. -/
def Digest.zero : Digest := ⟨List.replicate md5Size 0, by simp⟩

/-- Go `error` values met by the pipeline: errors made by `errors.New` and
errors reported by the file system (`*os.PathError`). -/
inductive GoError where
  | errorsNew (text : String)
  | pathError (op : String) (path : GoString) (cause : String)
deriving DecidableEq

/-- The struct `result` (BT.go lines 16-20); `err = none` is a nil error. -/
structure result where
  path : GoString
  sum : Digest
  err : Option GoError
deriving DecidableEq

/-- The type `map[string][md5.Size]byte`, as an association list that holds each
key at most once. -/
abbrev GoMap := List (GoString × Digest)

/-- The keys held by a map. -/
def GoMap.keys (m : GoMap) : List GoString := m.map Prod.fst

/-- The expression `m[k]`: the value stored under `k`, the zero value when absent. -/
def GoMap.get (m : GoMap) (k : GoString) : Digest :=
  match m.lookup k with
  | some v => v
  | none => Digest.zero

/-- The statement `m[k] = v`: a binding of `k` already present is replaced. -/
def GoMap.set (m : GoMap) (k : GoString) (v : Digest) : GoMap :=
  (k, v) :: m.filter (fun e => !(e.1 == k))

/-! ## Formatting and sorting (standard library) -/

/-- The digit table of package `fmt`: the bytes of `"0123456789abcdef"`. -/
def ldigits : List Byte :=
  [48, 49, 50, 51, 52, 53, 54, 55, 56, 57, 97, 98, 99, 100, 101, 102]

/-- The hex digit for a value below 16. -/
def hexDigit (n : Nat) : Byte := ldigits.getD n 0

/-- The verb `%x` on one byte: high nibble, then low nibble. -/
def hexByte (b : Byte) : GoString := [hexDigit (b.val / 16), hexDigit (b.val % 16)]

/-- The call `fmt.Sprintf("%x", d)` on a byte array. -/
def sprintfx (d : Digest) : GoString := d.bytes.flatMap hexByte

/-- The comparison `a < b` of two Go strings: byte by byte, a proper prefix first. -/
def strLess : GoString → GoString → Bool
  | [], [] => false
  | [], _ :: _ => true
  | _ :: _, [] => false
  | a :: as, b :: bs => decide (a < b) || (a == b && strLess as bs)

/-- The order `sort.Strings` sorts by: `a` may stand before `b` when `b < a` fails. -/
def strLE (a b : GoString) : Prop := strLess b a = false

instance strLE.decidable : DecidableRel strLE := fun a b =>
  inferInstanceAs (Decidable (strLess b a = false))

/-- The call `sort.Strings(paths)`: the slice in increasing order. -/
def sortStrings (paths : List GoString) : List GoString :=
  List.insertionSort strLE paths

/-! ## `sumFiles` (BT.go lines 22-57) -/

/-- The kinds of entry `info.Mode()` tells apart. -/
inductive FileKind where
  | regular
  | directory
  | symlink
  | other
deriving DecidableEq

/-- An `os.FileInfo`, as far as the pipeline reads it. -/
structure FileInfo where
  kind : FileKind
deriving DecidableEq

/-- The test `info.Mode().IsRegular()`. -/
def FileInfo.IsRegular (info : FileInfo) : Bool := info.kind == FileKind.regular

/-- One call `filepath.Walk` makes to its callback: the three arguments (`info`
may be nil when `err` is not), and whether the channel `done` is closed at the
moment the callback would reach its `select`. -/
structure Visit where
  path : GoString
  info : Option FileInfo
  err : Option GoError
  done : Bool
deriving DecidableEq

/-- What one call of the callback does: the path it started a hasher goroutine
for (if any), and the error it returns (`none` for `nil`). -/
structure Outcome where
  spawned : Option GoString
  ret : Option GoError
deriving DecidableEq

/-- The error of line 45. -/
def walkCanceled : GoError := GoError.errorsNew "Walk Canceled"

/-- The callback handed to `filepath.Walk` (lines 27-49).  The result `none`
is the run-time panic of calling `Mode` on a nil `info`. -/
def walkFn (done : Bool) (path : GoString) (info : Option FileInfo)
    (err : Option GoError) : Option Outcome :=
  match err with
  | some _ => some ⟨none, none⟩
  | none =>
    match info with
    | none => none
    | some i =>
      if !i.IsRegular then some ⟨none, none⟩
      else if done then some ⟨some path, some walkCanceled⟩
      else some ⟨some path, none⟩

/-- The walker goroutine of `sumFiles` (lines 26-54) on the entries the walk
meets: the paths hasher goroutines were started for, in order, and the error
sent on `errc`.  The result `none` is a panic of the callback. -/
def sumFiles : List Visit → Option (List GoString × Option GoError)
  | [] => some ([], none)
  | v :: rest =>
    match walkFn v.done v.path v.info v.err with
    | none => none
    | some o =>
      match o.ret with
      | some e => some (o.spawned.toList, some e)
      | none =>
        match sumFiles rest with
        | none => none
        | some (tasks, e) => some (o.spawned.toList ++ tasks, e)

/-- The hasher goroutine (lines 36-38): the `result` it offers on the channel. -/
def fileHasher (md5Sum : GoString → Digest) (readFile : GoString → GoString × Option GoError)
    (path : GoString) : result :=
  let (data, err) := readFile path
  ⟨path, md5Sum data, err⟩

/-- The values the collector can receive from the hashers of `tasks` when each
of them delivers: their results, in any order of arrival. -/
def Arrival (md5Sum : GoString → Digest) (readFile : GoString → GoString × Option GoError)
    (tasks : List GoString) (c : List result) : Prop :=
  c.Perm (tasks.map (fileHasher md5Sum readFile))

/-! ## `MD5All` (BT.go lines 59-74) -/

/-- The loop `for r := range c` of `MD5All` (lines 64-69), run on the values the
channel yields, from the map built so far.  `Except.error e` is the early
`return nil, r.err`; `Except.ok m` is the map when the channel is closed. -/
def collect : List result → GoMap → Except GoError GoMap
  | [], m => Except.ok m
  | r :: rest, m =>
    match r.err with
    | some e => Except.error e
    | none => collect rest (m.set r.path r.sum)

/-- The function `MD5All`, given what its two channels deliver: `c` the values of
the result channel in arrival order, `errc` the value the walker sends.  The
first component is the returned map (`none` for `nil`), the second the
returned error (`none` for `nil`). -/
def MD5All (c : List result) (errc : Option GoError) : Option GoMap × Option GoError :=
  match collect c [] with
  | Except.error e => (none, some e)
  | Except.ok m =>
    match errc with
    | some err => (none, some err)
    | none => (some m, none)

/-! ## `hash` (BT.go lines 76-94) -/

/-- Lines 82-90 of `hash`: the string `data` built from a map whose keys `range`
enumerates in the order `order`. -/
def hashData (m : GoMap) (order : List GoString) : GoString :=
  let paths := order.foldl (fun acc path => acc ++ [path]) []
  let paths := sortStrings paths
  paths.foldl (fun data path => data ++ sprintfx (m.get path)) []

/-- Lines 82-93 of `hash`: the aggregate of a map. -/
def hashMap (md5Sum : GoString → Digest) (m : GoMap) (order : List GoString) : GoString :=
  sprintfx (md5Sum (hashData m order))

/-- The function `hash`, given what the channels of `MD5All` deliver and the
order in which `range` enumerates a map.  The error branch returns `""`
(after printing the error, which is not modelled). -/
def hash (md5Sum : GoString → Digest) (rangeOrder : GoMap → List GoString)
    (c : List result) (errc : Option GoError) : GoString :=
  match MD5All c errc with
  | (_, some _) => []
  | (m, none) =>
    let m := m.getD []
    hashMap md5Sum m (rangeOrder m)

/-! ## Concrete data for examples -/

/-- A checksum with the type of `md5.Sum` (sixteen copies of the sum of the
bytes), to instantiate the digest function in examples. -/
def sumDigest (data : GoString) : Digest :=
  ⟨List.replicate md5Size (data.foldl (fun s b => s + b) 0), by simp⟩

/-- A file system for examples: every file reads as its own name, without error. -/
def echoFile (path : GoString) : GoString × Option GoError := (path, none)

/-- The map `{"a": digest("x"), "b": digest("y")}`. -/
def exMap : GoMap := [([97], sumDigest [120]), ([98], sumDigest [121])]

/-! ## The order of `sort.Strings` -/

theorem strLess_iff_lex (a b : GoString) :
    strLess a b = true ↔ List.Lex (· < ·) a b := by
  induction a generalizing b with
  | nil =>
    cases b with
    | nil => simp [strLess]
    | cons y ys => simp [strLess, List.Lex.nil]
  | cons x xs ih =>
    cases b with
    | nil => simp [strLess]
    | cons y ys =>
      simp only [strLess, Bool.or_eq_true, Bool.and_eq_true, decide_eq_true_eq, beq_iff_eq, ih]
      constructor
      · rintro (h | ⟨rfl, h⟩)
        · exact List.Lex.rel h
        · exact List.Lex.cons h
      · intro h
        cases h with
        | rel h => exact Or.inl h
        | cons h => exact Or.inr ⟨rfl, h⟩

theorem strLE_iff_not_lex (a b : GoString) : strLE a b ↔ ¬ List.Lex (· < ·) b a := by
  unfold strLE
  rw [← strLess_iff_lex]
  simp

theorem strLE_isTotal : IsTotal GoString strLE := ⟨fun a b => by
    rw [strLE_iff_not_lex, strLE_iff_not_lex]
    by_cases h : List.Lex (· < ·) b a
    · exact Or.inr fun h2 => asymm (r := List.Lex (· < ·)) h h2
    · exact Or.inl h⟩

theorem strLE_isTrans : IsTrans GoString strLE := ⟨fun a b c => by
    rw [strLE_iff_not_lex, strLE_iff_not_lex, strLE_iff_not_lex]
    intro hab hbc hca
    rcases trichotomous_of (List.Lex (· < · : Byte → Byte → Prop)) a b with h | h | h
    · exact hbc (IsTrans.trans (r := List.Lex (· < ·)) _ _ _ hca h)
    · subst h; exact hbc hca
    · exact hab h⟩

theorem strLE_isAntisymm : IsAntisymm GoString strLE := ⟨fun a b => by
    rw [strLE_iff_not_lex, strLE_iff_not_lex]
    intro hab hba
    rcases trichotomous_of (List.Lex (· < · : Byte → Byte → Prop)) a b with h | h | h
    · exact absurd h hba
    · exact h
    · exact absurd h hab⟩

theorem sortStrings_perm (l : List GoString) : (sortStrings l).Perm l :=
  List.perm_insertionSort strLE l

theorem sortStrings_sorted (l : List GoString) : (sortStrings l).Sorted strLE :=
  @List.sorted_insertionSort _ strLE _ strLE_isTotal strLE_isTrans l

/-- Any increasing arrangement of the same strings is the one `sort.Strings` yields. -/
theorem sortStrings_unique {l ks : List GoString} (hp : ks.Perm l) (hs : ks.Sorted strLE) :
    sortStrings l = ks :=
  @List.eq_of_perm_of_sorted _ strLE strLE_isAntisymm _ _
    ((sortStrings_perm l).trans hp.symm) (sortStrings_sorted l) hs

theorem sortStrings_congr {l₁ l₂ : List GoString} (hp : l₁.Perm l₂) :
    sortStrings l₁ = sortStrings l₂ :=
  sortStrings_unique ((sortStrings_perm l₁).trans hp) (sortStrings_sorted l₁) |>.symm

/-- A strictly increasing list (in the lexicographic order) is increasing for `strLE`. -/
theorem sorted_strLE_of_lex {ks : List GoString} (h : ks.Sorted (List.Lex (· < ·))) :
    ks.Sorted strLE := by
  refine List.Pairwise.imp ?_ h
  intro a b hab
  rw [strLE_iff_not_lex]
  exact fun hba => asymm (r := List.Lex (· < ·)) hab hba

/-- Without repeated strings, `sort.Strings` yields a strictly increasing list. -/
theorem sortStrings_lex {l : List GoString} (hn : l.Nodup) :
    (sortStrings l).Sorted (List.Lex (· < ·)) := by
  have hs := sortStrings_sorted l
  have hnd : (sortStrings l).Nodup := (sortStrings_perm l).nodup_iff.mpr hn
  have := List.Pairwise.and hs hnd
  refine List.Pairwise.imp ?_ this
  rintro a b ⟨hle, hne⟩
  rw [strLE_iff_not_lex] at hle
  rcases trichotomous_of (List.Lex (· < · : Byte → Byte → Prop)) a b with h | h | h
  · exact h
  · exact absurd h hne
  · exact absurd h hle

/-! ## Hexadecimal rendering -/

theorem hexDigit_injOn : ∀ i j : Fin 16, hexDigit i.val = hexDigit j.val → i = j := by
  decide

theorem hexDigit_mem (i : Fin 16) : hexDigit i.val ∈ ldigits := by
  revert i; decide

theorem hexByte_injective : Function.Injective hexByte := by
  intro a b h
  simp only [hexByte, List.cons.injEq, and_true] at h
  have ha : a.val / 16 < 16 := by omega
  have hb : b.val / 16 < 16 := by omega
  have ha2 : a.val % 16 < 16 := by omega
  have hb2 : b.val % 16 < 16 := by omega
  have h1 := hexDigit_injOn ⟨a.val / 16, ha⟩ ⟨b.val / 16, hb⟩ h.1
  have h2 := hexDigit_injOn ⟨a.val % 16, ha2⟩ ⟨b.val % 16, hb2⟩ h.2
  simp only [Fin.mk.injEq] at h1 h2
  apply Fin.ext
  omega

theorem hexByte_length (b : Byte) : (hexByte b).length = 2 := rfl

theorem flatMap_hexByte_length (bs : List Byte) :
    (bs.flatMap hexByte).length = 2 * bs.length := by
  induction bs with
  | nil => rfl
  | cons b bs ih => simp [List.flatMap_cons, hexByte_length, ih]; omega

theorem flatMap_hexByte_injective : Function.Injective (fun bs : List Byte => bs.flatMap hexByte) := by
  intro l₁
  induction l₁ with
  | nil =>
    intro l₂ h
    cases l₂ with
    | nil => rfl
    | cons b bs => simp [hexByte] at h
  | cons a as ih =>
    intro l₂ h
    cases l₂ with
    | nil => simp [hexByte] at h
    | cons b bs =>
      simp only [List.flatMap_cons] at h
      have := List.append_inj h (by simp [hexByte_length])
      rw [hexByte_injective this.1, ih this.2]

/-- The rendering `%x` of a digest has 32 characters. -/
theorem sprintfx_length (d : Digest) : (sprintfx d).length = 32 := by
  unfold sprintfx
  rw [flatMap_hexByte_length, d.size_eq]
  rfl

/-- The rendering `%x` of a digest uses the characters `0-9a-f` only. -/
theorem sprintfx_lower (d : Digest) : ∀ ch ∈ sprintfx d, ch ∈ ldigits := by
  intro ch h
  simp only [sprintfx, List.mem_flatMap, hexByte, List.mem_cons, List.mem_singleton,
    List.not_mem_nil, or_false] at h
  obtain ⟨b, -, rfl | rfl⟩ := h
  · exact hexDigit_mem ⟨b.val / 16, by omega⟩
  · exact hexDigit_mem ⟨b.val % 16, by omega⟩

/-- Distinct digests have distinct renderings. -/
theorem sprintfx_injective : Function.Injective sprintfx := by
  intro d₁ d₂ h
  have := flatMap_hexByte_injective h
  cases d₁; cases d₂; simp_all

/-- Renderings of digests are laid end to end without ambiguity. -/
theorem flatMap_sprintfx_injective {l₁ l₂ : List Digest}
    (h : l₁.flatMap sprintfx = l₂.flatMap sprintfx) : l₁ = l₂ := by
  induction l₁ generalizing l₂ with
  | nil =>
    cases l₂ with
    | nil => rfl
    | cons b bs =>
      have := congrArg List.length h
      simp [List.flatMap_cons, sprintfx_length] at this
      omega
  | cons a as ih =>
    cases l₂ with
    | nil =>
      have := congrArg List.length h
      simp [List.flatMap_cons, sprintfx_length] at this
    | cons b bs =>
      simp only [List.flatMap_cons] at h
      have := List.append_inj h (by simp [sprintfx_length])
      rw [sprintfx_injective this.1, ih this.2]

/-! ## The reduction of `hash` -/

theorem foldl_snoc_eq (acc l : List GoString) :
    l.foldl (fun acc path => acc ++ [path]) acc = acc ++ l := by
  induction l generalizing acc with
  | nil => simp
  | cons x xs ih => simp [ih]

theorem foldl_data_eq (f : GoString → GoString) (data : GoString) (l : List GoString) :
    l.foldl (fun data path => data ++ f path) data = data ++ l.flatMap f := by
  induction l generalizing data with
  | nil => simp
  | cons x xs ih => simp [ih, List.flatMap_cons]

/-- The string `data` of `hash` is the renderings of the values, in sorted key order. -/
theorem hashData_eq (m : GoMap) (order : List GoString) :
    hashData m order = (sortStrings order).flatMap (fun p => sprintfx (m.get p)) := by
  simp [hashData, foldl_snoc_eq, foldl_data_eq]

theorem hashData_eq_of_sorted {m : GoMap} {order ks : List GoString}
    (ho : order.Perm m.keys) (hp : ks.Perm m.keys) (hs : ks.Sorted strLE) :
    hashData m order = ks.flatMap (fun p => sprintfx (m.get p)) := by
  rw [hashData_eq, sortStrings_unique (hp.trans ho.symm) hs]

/-! ## Maps -/

theorem GoMap.keys_set (m : GoMap) (k : GoString) (v : Digest) :
    (m.set k v).keys = k :: m.keys.filter (fun x => !(x == k)) := by
  simp [GoMap.set, GoMap.keys, List.filter_map, Function.comp_def]

theorem GoMap.mem_keys_set (m : GoMap) (k k' : GoString) (v : Digest) :
    k' ∈ (m.set k v).keys ↔ k' = k ∨ k' ∈ m.keys := by
  rw [GoMap.keys_set]
  by_cases h : k' = k <;> simp [h, List.mem_filter]

theorem GoMap.nodup_keys_set {m : GoMap} (k : GoString) (v : Digest) (h : m.keys.Nodup) :
    (m.set k v).keys.Nodup := by
  rw [GoMap.keys_set, List.nodup_cons]
  exact ⟨by simp [List.mem_filter], h.filter _⟩

theorem lookup_filter_ne (m : GoMap) (k k' : GoString) (h : k' ≠ k) :
    (m.filter (fun e => !(e.1 == k))).lookup k' = m.lookup k' := by
  induction m with
  | nil => rfl
  | cons e m ih =>
    obtain ⟨a, b⟩ := e
    by_cases hak : a = k
    · subst hak
      have hne : (k' == a) = false := by simpa using h
      simp [List.filter_cons, List.lookup_cons, hne, ih]
    · have hf : (!(a == k)) = true := by simpa using hak
      simp only [List.filter_cons, hf, if_true, List.lookup_cons, ih]

theorem GoMap.get_set_self (m : GoMap) (k : GoString) (v : Digest) :
    (m.set k v).get k = v := by
  simp [GoMap.get, GoMap.set, List.lookup_cons]

theorem GoMap.get_set_ne (m : GoMap) {k k' : GoString} (v : Digest) (h : k' ≠ k) :
    (m.set k v).get k' = m.get k' := by
  have hne : (k' == k) = false := by simpa using h
  simp [GoMap.get, GoMap.set, List.lookup_cons, hne, lookup_filter_ne m k k' h]

/-! ## The collector loop -/

/-- What the loop of `MD5All` builds from results that carry no error. -/
theorem collect_ok (c : List result) (m₀ : GoMap) (hc : ∀ r ∈ c, r.err = none) :
    ∃ m, collect c m₀ = Except.ok m ∧
      (∀ k, k ∈ m.keys ↔ k ∈ c.map result.path ∨ k ∈ m₀.keys) ∧
      (m₀.keys.Nodup → m.keys.Nodup) ∧
      (∀ k, k ∉ c.map result.path → m.get k = m₀.get k) ∧
      ((c.map result.path).Nodup → ∀ r ∈ c, m.get r.path = r.sum) := by
  induction c generalizing m₀ with
  | nil => exact ⟨m₀, rfl, by simp, id, fun _ _ => rfl, by simp⟩
  | cons r rest ih =>
    have hr : r.err = none := hc r (List.mem_cons_self _ _)
    obtain ⟨m, hm, hkeys, hnd, hget, hsum⟩ :=
      ih (m₀.set r.path r.sum) (fun x hx => hc x (List.mem_cons_of_mem _ hx))
    refine ⟨m, by simp [collect, hr, hm], ?_, ?_, ?_, ?_⟩
    · intro k
      rw [hkeys, GoMap.mem_keys_set, List.map_cons, List.mem_cons]
      tauto
    · exact fun h => hnd (GoMap.nodup_keys_set _ _ h)
    · intro k hk
      rw [List.map_cons, List.mem_cons, not_or] at hk
      rw [hget k hk.2, GoMap.get_set_ne _ _ hk.1]
    · intro hnodup x hx
      rw [List.map_cons, List.nodup_cons] at hnodup
      rcases List.mem_cons.mp hx with rfl | hx
      · rw [hget _ hnodup.1, GoMap.get_set_self]
      · exact hsum hnodup.2 x hx

/-- The loop of `MD5All` returns at the first result that carries an error. -/
theorem collect_error (pre post : List result) (r : result) (e : GoError) (m₀ : GoMap)
    (hpre : ∀ x ∈ pre, x.err = none) (hr : r.err = some e) :
    collect (pre ++ r :: post) m₀ = Except.error e := by
  induction pre generalizing m₀ with
  | nil => simp [collect, hr]
  | cons x xs ih =>
    have hx : x.err = none := hpre x (List.mem_cons_self _ _)
    simp only [List.cons_append, collect, hx]
    exact ih _ (fun y hy => hpre y (List.mem_cons_of_mem _ hy))

/-- The loop of `MD5All` ends with a map exactly when no result carries an error. -/
theorem collect_ok_iff (c : List result) (m₀ : GoMap) :
    (∃ m, collect c m₀ = Except.ok m) ↔ ∀ r ∈ c, r.err = none := by
  constructor
  · rintro ⟨m, hm⟩
    induction c generalizing m₀ with
    | nil => simp
    | cons r rest ih =>
      cases hr : r.err with
      | some e => simp [collect, hr] at hm
      | none =>
        simp only [collect, hr] at hm
        intro x hx
        rcases List.mem_cons.mp hx with rfl | hx
        · exact hr
        · exact ih _ hm x hx
  · intro h
    obtain ⟨m, hm, -⟩ := collect_ok c m₀ h
    exact ⟨m, hm⟩

/-! ## `MD5All` and `hash` on results without error -/

theorem MD5All_ok (c : List result) (hc : ∀ r ∈ c, r.err = none) :
    ∃ m, MD5All c none = (some m, none) ∧
      (∀ k, k ∈ m.keys ↔ k ∈ c.map result.path) ∧ m.keys.Nodup ∧
      ((c.map result.path).Nodup → ∀ r ∈ c, m.get r.path = r.sum) := by
  obtain ⟨m, hm, hkeys, hnd, -, hsum⟩ := collect_ok c [] hc
  refine ⟨m, by simp [MD5All, hm], ?_, hnd (by simp [GoMap.keys]), hsum⟩
  intro k
  rw [hkeys]
  simp [GoMap.keys]

/-- The outcome of `MD5All` on a sequence whose first error is that of `r`. -/
theorem MD5All_error (pre post : List result) (r : result) (e : GoError)
    (errc : Option GoError) (hpre : ∀ x ∈ pre, x.err = none) (hr : r.err = some e) :
    MD5All (pre ++ r :: post) errc = (none, some e) := by
  unfold MD5All
  rw [collect_error pre post r e [] hpre hr]

theorem hash_of_map {md5Sum : GoString → Digest} {rangeOrder : GoMap → List GoString}
    {c : List result} {errc : Option GoError} {m : GoMap}
    (h : MD5All c errc = (some m, none)) :
    hash md5Sum rangeOrder c errc = hashMap md5Sum m (rangeOrder m) := by
  simp [hash, h]

/-- The aggregate of results without error and with distinct paths: the digest of
the renderings of their sums, taken in increasing order of path. -/
theorem hash_of_results (md5Sum : GoString → Digest) (rangeOrder : GoMap → List GoString)
    (c rs : List result) (hc : ∀ r ∈ c, r.err = none) (hnd : (c.map result.path).Nodup)
    (hro : ∀ m, (rangeOrder m).Perm m.keys)
    (hp : rs.Perm c) (hs : (rs.map result.path).Sorted strLE) :
    hash md5Sum rangeOrder c none = sprintfx (md5Sum (rs.flatMap fun r => sprintfx r.sum)) := by
  obtain ⟨m, hm, hkeys, hmnd, hsum⟩ := MD5All_ok c hc
  have hkp : (rs.map result.path).Perm m.keys := by
    refine (List.perm_ext_iff_of_nodup ((hp.map _).nodup_iff.mpr hnd) hmnd).mpr ?_
    intro k
    rw [hkeys, (hp.map result.path).mem_iff]
  rw [hash_of_map hm, hashMap, hashData_eq_of_sorted (hro m) hkp hs, List.flatMap_map]
  congr 2
  apply List.flatMap_congr
  intro r hr
  rw [hsum hnd r (hp.subset hr)]

/-! ## The digest reducer -/

/-- C1: for every map with distinct keys (the empty map included), whatever the
order in which `range` enumerates it, `hash` returns the hex form of the digest
of the buffer made of the 32-character lowercase hex renderings of the values,
laid end to end in the strictly increasing lexicographic order `ks` of the
keys; this is what `hash` returns whenever `MD5All` hands it that map; for the
empty map the buffer is empty, and for `{a: digest "x", b: digest "y"}` it is
`hex (digest "x") ++ hex (digest "y")`. -/
theorem hash_sorted_hex_concat (md5Sum : GoString → Digest) (m : GoMap)
    (order : List GoString) (hm : m.keys.Nodup) (ho : order.Perm m.keys) :
    (∃ ks : List GoString, ks.Perm m.keys ∧ ks.Sorted (List.Lex (· < ·)) ∧
      hashMap md5Sum m order
        = sprintfx (md5Sum (ks.flatMap fun p => sprintfx (m.get p))) ∧
      ∀ p ∈ ks, (sprintfx (m.get p)).length = 32 ∧
        ∀ ch ∈ sprintfx (m.get p), ch ∈ ldigits) ∧
    (∀ (rangeOrder : GoMap → List GoString) (c : List result) (errc : Option GoError),
      MD5All c errc = (some m, none) → rangeOrder m = order →
      hash md5Sum rangeOrder c errc = hashMap md5Sum m order) ∧
    (m = [] → hashMap md5Sum m order = sprintfx (md5Sum [])) ∧
    (∀ x y : GoString, m.keys.Perm [[97], [98]] →
      m.get [97] = md5Sum x → m.get [98] = md5Sum y →
      hashMap md5Sum m order
        = sprintfx (md5Sum (sprintfx (md5Sum x) ++ sprintfx (md5Sum y)))) := by
  refine ⟨⟨sortStrings m.keys, sortStrings_perm _, sortStrings_lex hm, ?_, ?_⟩, ?_, ?_, ?_⟩
  · rw [hashMap, hashData_eq_of_sorted ho (sortStrings_perm _) (sortStrings_sorted _)]
  · exact fun p _ => ⟨sprintfx_length _, sprintfx_lower _⟩
  · intro rangeOrder c errc hM hr
    rw [hash_of_map hM, hr]
  · intro hnil
    subst hnil
    have : order = [] := List.Perm.eq_nil ho
    subst this
    rfl
  · intro x y hk hx hy
    have hs : List.Sorted strLE ([[97], [98]] : List GoString) := by decide
    rw [hashMap, hashData_eq_of_sorted ho hk.symm hs]
    simp [List.flatMap_cons, hx, hy]

theorem hash_sorted_hex_concat_witness :
    exMap.keys.Nodup ∧ List.Perm [[98], [97]] exMap.keys ∧
    hashMap sumDigest exMap [[98], [97]]
      = sprintfx (sumDigest (sprintfx (sumDigest [120]) ++ sprintfx (sumDigest [121]))) :=
  ⟨by decide, by decide,
    (hash_sorted_hex_concat sumDigest exMap [[98], [97]] (by decide) (by decide)).2.2.2
      [120] [121] (by decide) (by decide) (by decide)⟩

/-- C2: for error-free results with pairwise distinct paths, any two orders of
arrival at the collector and any two orders of map enumeration give the same
aggregate: `hash` returns the digest of the renderings of the sums taken in
increasing order of path, which depends on the path-to-digest pairs only. -/
theorem hash_arrival_order_irrelevant (md5Sum : GoString → Digest)
    (rangeOrder₁ rangeOrder₂ : GoMap → List GoString) (c₁ c₂ : List result)
    (hperm : c₁.Perm c₂) (herr : ∀ r ∈ c₁, r.err = none)
    (hnd : (c₁.map result.path).Nodup)
    (h₁ : ∀ m, (rangeOrder₁ m).Perm m.keys) (h₂ : ∀ m, (rangeOrder₂ m).Perm m.keys) :
    hash md5Sum rangeOrder₁ c₁ none = hash md5Sum rangeOrder₂ c₂ none ∧
    ∃ rs : List result, rs.Perm c₁ ∧ (rs.map result.path).Sorted (List.Lex (· < ·)) ∧
      hash md5Sum rangeOrder₁ c₁ none
        = sprintfx (md5Sum (rs.flatMap fun r => sprintfx r.sum)) := by
  classical
  obtain ⟨m, hm, hkeys, hmnd, hsum⟩ := MD5All_ok c₁ herr
  have herr₂ : ∀ r ∈ c₂, r.err = none := fun r hr => herr r (hperm.symm.subset hr)
  have hnd₂ : (c₂.map result.path).Nodup := (hperm.map _).nodup_iff.mp hnd
  -- the results, rebuilt from the sorted paths
  let g : GoString → result := fun p => ⟨p, m.get p, none⟩
  let ks := sortStrings (c₁.map result.path)
  have hks : ks.Perm (c₁.map result.path) := sortStrings_perm _
  have hg : c₁.map (fun r => g r.path) = c₁ := by
    conv_rhs => rw [← List.map_id c₁]
    apply List.map_congr_left
    intro r hr
    have e1 := herr r hr
    have e2 := hsum hnd r hr
    cases r
    simp_all [g]
  have hrs : (ks.map g).Perm c₁ := by
    have := hks.map g
    rw [List.map_map] at this
    exact this.trans (by rw [← hg]; simp [Function.comp_def, hg])
  have hpaths : (ks.map g).map result.path = ks := by
    simp [List.map_map, Function.comp_def, g]
  have hlex : ((ks.map g).map result.path).Sorted (List.Lex (· < ·)) := by
    rw [hpaths]; exact sortStrings_lex hnd
  have hle : ((ks.map g).map result.path).Sorted strLE := sorted_strLE_of_lex hlex
  have e₁ := hash_of_results md5Sum rangeOrder₁ c₁ (ks.map g) herr hnd h₁ hrs hle
  have e₂ := hash_of_results md5Sum rangeOrder₂ c₂ (ks.map g) herr₂ hnd₂ h₂
    (hrs.trans hperm) hle
  exact ⟨e₁.trans e₂.symm, ks.map g, hrs, hlex, e₁⟩

theorem hash_arrival_order_irrelevant_witness :
    hash sumDigest GoMap.keys
        [⟨[97], sumDigest [120], none⟩, ⟨[98], sumDigest [121], none⟩] none
      = hash sumDigest (fun m => m.keys.reverse)
        [⟨[98], sumDigest [121], none⟩, ⟨[97], sumDigest [120], none⟩] none :=
  (hash_arrival_order_irrelevant sumDigest GoMap.keys (fun m => m.keys.reverse)
    [⟨[97], sumDigest [120], none⟩, ⟨[98], sumDigest [121], none⟩]
    [⟨[98], sumDigest [121], none⟩, ⟨[97], sumDigest [120], none⟩]
    (List.Perm.swap _ _ _) (by decide) (by decide)
    (fun _ => List.Perm.refl _) (fun _ => List.reverse_perm _)).1

/-! ## The result collector -/

/-- C3: when at least one delivered result carries an error, `MD5All` returns a
nil map and the error of the first such result in arrival order, whatever the
number of error-free results before it, whatever follows it and whatever the
walker reports. -/
theorem MD5All_first_error (c : List result) (errc : Option GoError)
    (h : ∃ r ∈ c, r.err ≠ none) :
    ∃ (pre post : List result) (r : result) (e : GoError),
      c = pre ++ r :: post ∧ (∀ x ∈ pre, x.err = none) ∧ r.err = some e ∧
      MD5All c errc = (none, some e) := by
  induction c with
  | nil => simp at h
  | cons x xs ih =>
    cases hx : x.err with
    | some e =>
      exact ⟨[], xs, x, e, rfl, by simp, hx, MD5All_error [] xs x e errc (by simp) hx⟩
    | none =>
      have h2 : ∃ r ∈ xs, r.err ≠ none := by
        obtain ⟨r, hr, hne⟩ := h
        rcases List.mem_cons.mp hr with rfl | hr
        · exact absurd hx hne
        · exact ⟨r, hr, hne⟩
      obtain ⟨pre, post, r, e, hc, hpre, hr, -⟩ := ih h2
      have hpre2 : ∀ y ∈ x :: pre, y.err = none := by
        intro y hy
        rcases List.mem_cons.mp hy with rfl | hy
        · exact hx
        · exact hpre y hy
      refine ⟨x :: pre, post, r, e, by simp [hc], hpre2, hr, ?_⟩
      rw [hc, ← List.cons_append]
      exact MD5All_error (x :: pre) post r e errc hpre2 hr

theorem MD5All_first_error_witness :
    ∃ (pre post : List result) (r : result) (e : GoError),
      [⟨[97], sumDigest [120], none⟩,
        ⟨[98], sumDigest [], some (GoError.pathError "open" [98] "permission denied")⟩,
        ⟨[99], sumDigest [], some (GoError.pathError "open" [99] "no such file")⟩]
        = pre ++ r :: post ∧ (∀ x ∈ pre, x.err = none) ∧ r.err = some e ∧
      MD5All [⟨[97], sumDigest [120], none⟩,
        ⟨[98], sumDigest [], some (GoError.pathError "open" [98] "permission denied")⟩,
        ⟨[99], sumDigest [], some (GoError.pathError "open" [99] "no such file")⟩] none
        = (none, some e) :=
  MD5All_first_error _ none ⟨⟨[98], sumDigest [],
    some (GoError.pathError "open" [98] "permission denied")⟩, by simp, by simp⟩

/-- C4: when the walker reports no error and every hasher of the pairwise
distinct dispatched paths `tasks` delivers an error-free result, in any order of
arrival, `MD5All` returns a nil error and a map whose keys are exactly the
dispatched paths, one entry per file, each path bound to the digest of the
contents read from that file. -/
theorem MD5All_complete_map (md5Sum : GoString → Digest)
    (readFile : GoString → GoString × Option GoError) (tasks : List GoString)
    (c : List result) (hnd : tasks.Nodup) (hread : ∀ p ∈ tasks, (readFile p).2 = none)
    (harr : Arrival md5Sum readFile tasks c) :
    ∃ m, MD5All c none = (some m, none) ∧ m.keys.Nodup ∧
      (∀ p, p ∈ m.keys ↔ p ∈ tasks) ∧ m.keys.length = tasks.length ∧
      ∀ p ∈ tasks, m.get p = md5Sum (readFile p).1 := by
  unfold Arrival at harr
  have hpaths : (tasks.map (fileHasher md5Sum readFile)).map result.path = tasks := by
    simp [List.map_map, Function.comp_def, fileHasher]
  have hcp : (c.map result.path).Perm tasks := by
    rw [← hpaths]; exact harr.map _
  have herr : ∀ r ∈ c, r.err = none := by
    intro r hr
    obtain ⟨p, hp, rfl⟩ := List.mem_map.mp (harr.subset hr)
    exact hread p hp
  obtain ⟨m, hm, hkeys, hmnd, hsum⟩ := MD5All_ok c herr
  have hmem : ∀ p, p ∈ m.keys ↔ p ∈ tasks := fun p => by rw [hkeys, hcp.mem_iff]
  refine ⟨m, hm, hmnd, hmem, ?_, ?_⟩
  · exact ((List.perm_ext_iff_of_nodup hmnd hnd).mpr hmem).length_eq
  · intro p hp
    have hin : fileHasher md5Sum readFile p ∈ c :=
      harr.symm.subset (List.mem_map_of_mem _ hp)
    exact hsum (hcp.nodup_iff.mpr hnd) _ hin

theorem MD5All_complete_map_witness :
    ∃ m, MD5All [fileHasher sumDigest echoFile [98], fileHasher sumDigest echoFile [97]] none
        = (some m, none) ∧ m.keys.Nodup ∧
      (∀ p, p ∈ m.keys ↔ p ∈ [[97], [98]]) ∧ m.keys.length = [[97], [98]].length ∧
      ∀ p ∈ [[97], [98]], m.get p = sumDigest (echoFile p).1 :=
  MD5All_complete_map sumDigest echoFile [[97], [98]]
    [fileHasher sumDigest echoFile [98], fileHasher sumDigest echoFile [97]]
    (by decide) (by simp [echoFile]) (List.Perm.swap _ _ _)

/-- C5: two maps with distinct keys and the same key set that bind some path to
different digests feed different buffers to the final digest, whatever the
orders of enumeration; hence their aggregates differ whenever the digest
function does not collide on these two buffers. -/
theorem hash_detects_change (md5Sum : GoString → Digest) (m₁ m₂ : GoMap)
    (order₁ order₂ : List GoString) (hn₁ : m₁.keys.Nodup) (hn₂ : m₂.keys.Nodup)
    (ho₁ : order₁.Perm m₁.keys) (ho₂ : order₂.Perm m₂.keys)
    (hkeys : ∀ p, p ∈ m₁.keys ↔ p ∈ m₂.keys)
    (hdiff : ∃ p ∈ m₁.keys, m₁.get p ≠ m₂.get p) :
    hashData m₁ order₁ ≠ hashData m₂ order₂ ∧
    (md5Sum (hashData m₁ order₁) ≠ md5Sum (hashData m₂ order₂) →
      hashMap md5Sum m₁ order₁ ≠ hashMap md5Sum m₂ order₂) := by
  have hk : m₁.keys.Perm m₂.keys := (List.perm_ext_iff_of_nodup hn₁ hn₂).mpr hkeys
  have hne : hashData m₁ order₁ ≠ hashData m₂ order₂ := by
    rw [hashData_eq_of_sorted ho₁ (sortStrings_perm _) (sortStrings_sorted _),
      hashData_eq_of_sorted ho₂ ((sortStrings_perm m₁.keys).trans hk) (sortStrings_sorted _)]
    intro heq
    have h1 : ∀ (f : GoString → Digest) (l : List GoString),
        (l.flatMap fun p => sprintfx (f p)) = (l.map f).flatMap sprintfx := by
      intro f l; rw [List.flatMap_map]
    rw [h1, h1] at heq
    have hmap := flatMap_sprintfx_injective heq
    obtain ⟨p, hp, hpne⟩ := hdiff
    have hps : p ∈ sortStrings m₁.keys := (sortStrings_perm _).symm.subset hp
    exact hpne (List.map_inj_left.mp hmap p hps)
  refine ⟨hne, fun hmd h => ?_⟩
  exact hmd (sprintfx_injective h)

theorem hash_detects_change_witness :
    hashData exMap [[97], [98]]
      ≠ hashData [([97], sumDigest [121]), ([98], sumDigest [120])] [[98], [97]] ∧
    (sumDigest (hashData exMap [[97], [98]])
      ≠ sumDigest (hashData [([97], sumDigest [121]), ([98], sumDigest [120])] [[98], [97]]) →
    hashMap sumDigest exMap [[97], [98]]
      ≠ hashMap sumDigest [([97], sumDigest [121]), ([98], sumDigest [120])] [[98], [97]]) :=
  hash_detects_change sumDigest exMap [([97], sumDigest [121]), ([98], sumDigest [120])]
    [[97], [98]] [[98], [97]] (by decide) (by decide) (by decide) (by decide)
    (fun p => by simp [exMap, GoMap.keys]) ⟨[97], by decide, by decide⟩

/-- C10: the aggregate of a map depends only on the digests listed in increasing
order of path, not on the paths: two maps, whatever their keys, whose values
listed in strictly increasing lexicographic key order form the same sequence have
the same aggregate. -/
theorem hash_ignores_path_names (md5Sum : GoString → Digest) (m₁ m₂ : GoMap)
    (order₁ order₂ ks₁ ks₂ : List GoString)
    (ho₁ : order₁.Perm m₁.keys) (ho₂ : order₂.Perm m₂.keys)
    (hp₁ : ks₁.Perm m₁.keys) (hs₁ : ks₁.Sorted (List.Lex (· < ·)))
    (hp₂ : ks₂.Perm m₂.keys) (hs₂ : ks₂.Sorted (List.Lex (· < ·)))
    (hseq : ks₁.map m₁.get = ks₂.map m₂.get) :
    hashMap md5Sum m₁ order₁ = hashMap md5Sum m₂ order₂ := by
  have h1 : ∀ (f : GoString → Digest) (l : List GoString),
      (l.flatMap fun p => sprintfx (f p)) = (l.map f).flatMap sprintfx := by
    intro f l; rw [List.flatMap_map]
  rw [hashMap, hashMap, hashData_eq_of_sorted ho₁ hp₁ (sorted_strLE_of_lex hs₁),
    hashData_eq_of_sorted ho₂ hp₂ (sorted_strLE_of_lex hs₂), h1, h1, hseq]

theorem hash_ignores_path_names_witness :
    hashMap sumDigest [([97], sumDigest [120]), ([99], sumDigest [121])] [[99], [97]]
      = hashMap sumDigest [([98, 49], sumDigest [121]), ([98], sumDigest [120])] [[98, 49], [98]] :=
  hash_ignores_path_names sumDigest [([97], sumDigest [120]), ([99], sumDigest [121])]
    [([98, 49], sumDigest [121]), ([98], sumDigest [120])] [[99], [97]] [[98, 49], [98]]
    [[97], [99]] [[98], [98, 49]] (by decide) (by decide) (by decide) (by decide)
    (by decide) (by decide) (by decide)

/-! ## Walk-level errors -/

/-- The two ways `MD5All` returns: an error and a nil map, or a map and a nil
error, the second exactly when no result carries an error and the walker
reports none. -/
theorem MD5All_cases (c : List result) (errc : Option GoError) :
    (∃ e, MD5All c errc = (none, some e) ∧ ((∃ r ∈ c, r.err ≠ none) ∨ errc = some e)) ∨
    (∃ m, MD5All c errc = (some m, none) ∧ (∀ r ∈ c, r.err = none) ∧ errc = none) := by
  unfold MD5All
  cases h : collect c [] with
  | error e =>
    refine Or.inl ⟨e, rfl, Or.inl ?_⟩
    by_contra hno
    push_neg at hno
    obtain ⟨m, hm⟩ := (collect_ok_iff c []).mpr hno
    rw [h] at hm
    cases hm
  | ok m =>
    cases errc with
    | some err => exact Or.inl ⟨err, rfl, Or.inr rfl⟩
    | none => exact Or.inr ⟨m, rfl, (collect_ok_iff c []).mp ⟨m, h⟩, rfl⟩

theorem hashMap_ne_nil (md5Sum : GoString → Digest) (m : GoMap) (order : List GoString) :
    hashMap md5Sum m order ≠ [] := by
  intro h
  have := sprintfx_length (md5Sum (hashData m order))
  rw [hashMap] at h
  rw [h] at this
  simp at this

/-- C6: when every delivered result is error-free but the walker reports an
error, `MD5All` returns a nil map and that error, and `hash` returns the empty
string without aggregating; `MD5All` returns a map only if no result carries an
error and the walk error is nil, and `hash` returns an aggregate (a non-empty
string) exactly in that case. -/
theorem MD5All_walk_error (md5Sum : GoString → Digest) (rangeOrder : GoMap → List GoString)
    (c : List result) (e : GoError) (hc : ∀ r ∈ c, r.err = none) :
    MD5All c (some e) = (none, some e) ∧
    hash md5Sum rangeOrder c (some e) = [] ∧
    (∀ (c₀ : List result) (errc : Option GoError) (m : GoMap),
      (MD5All c₀ errc).1 = some m → (∀ r ∈ c₀, r.err = none) ∧ errc = none) ∧
    (∀ (c₀ : List result) (errc : Option GoError),
      hash md5Sum rangeOrder c₀ errc ≠ [] ↔ (∀ r ∈ c₀, r.err = none) ∧ errc = none) := by
  have hM : MD5All c (some e) = (none, some e) := by
    obtain ⟨m, hm, -⟩ := collect_ok c [] hc
    simp [MD5All, hm]
  refine ⟨hM, by simp [hash, hM], ?_, ?_⟩
  · intro c₀ errc m hm
    rcases MD5All_cases c₀ errc with ⟨e₀, h, -⟩ | ⟨m₀, -, h⟩
    · rw [h] at hm; cases hm
    · exact h
  · intro c₀ errc
    rcases MD5All_cases c₀ errc with ⟨e₀, h, hwhy⟩ | ⟨m₀, h, hgood⟩
    · have hnil : hash md5Sum rangeOrder c₀ errc = [] := by simp [hash, h]
      constructor
      · intro hne; exact absurd hnil hne
      · rintro ⟨h1, h2⟩
        rcases hwhy with ⟨r, hr, hne⟩ | herr
        · exact absurd (h1 r hr) hne
        · rw [h2] at herr; cases herr
    · rw [hash_of_map h]
      exact ⟨fun _ => hgood, fun _ => hashMap_ne_nil _ _ _⟩

theorem MD5All_walk_error_witness :
    MD5All [⟨[97], sumDigest [120], none⟩] (some walkCanceled) = (none, some walkCanceled) ∧
    hash sumDigest GoMap.keys [⟨[97], sumDigest [120], none⟩] (some walkCanceled) = [] :=
  ⟨(MD5All_walk_error sumDigest GoMap.keys [⟨[97], sumDigest [120], none⟩] walkCanceled
      (by decide)).1,
   (MD5All_walk_error sumDigest GoMap.keys [⟨[97], sumDigest [120], none⟩] walkCanceled
      (by decide)).2.1⟩

/-! ## The walk callback -/

theorem sumFiles_cons_nil_ret {v : Visit} {rest : List Visit}
    (h : walkFn v.done v.path v.info v.err = some ⟨none, none⟩) :
    sumFiles (v :: rest) = sumFiles rest := by
  rw [sumFiles, h]
  cases sumFiles rest with
  | none => rfl
  | some p => cases p; simp

/-- The error the walker sends is nil or the error of line 45, the latter only
when a regular file reported without error was visited with `done` closed. -/
theorem sumFiles_error (vs : List Visit) (tasks : List GoString) (werr : Option GoError)
    (h : sumFiles vs = some (tasks, werr)) :
    werr = none ∨ (werr = some walkCanceled ∧
      ∃ u ∈ vs, u.err = none ∧ u.done = true ∧ ∃ i, u.info = some i ∧ i.IsRegular = true) := by
  induction vs generalizing tasks with
  | nil =>
    simp only [sumFiles, Option.some.injEq, Prod.mk.injEq] at h
    exact Or.inl h.2.symm
  | cons v rest ih =>
    have lift : ∀ {ts : List GoString}, sumFiles rest = some (ts, werr) →
        werr = none ∨ (werr = some walkCanceled ∧
          ∃ u ∈ v :: rest, u.err = none ∧ u.done = true ∧
            ∃ i, u.info = some i ∧ i.IsRegular = true) := by
      intro ts hts
      rcases ih ts hts with h0 | ⟨h1, u, hu, h2⟩
      · exact Or.inl h0
      · exact Or.inr ⟨h1, u, List.mem_cons_of_mem _ hu, h2⟩
    rw [sumFiles] at h
    cases hverr : v.err with
    | some e =>
      simp only [walkFn, hverr] at h
      cases hr : sumFiles rest with
      | none => simp [hr] at h
      | some p =>
        obtain ⟨ts, e₀⟩ := p
        simp only [hr, Option.some.injEq, Prod.mk.injEq] at h
        obtain ⟨-, rfl⟩ := h
        exact lift hr
    | none =>
      cases hinfo : v.info with
      | none => simp [walkFn, hverr, hinfo] at h
      | some i =>
        cases hreg : i.IsRegular with
        | false =>
          simp only [walkFn, hverr, hinfo, hreg] at h
          cases hr : sumFiles rest with
          | none => simp [hr] at h
          | some p =>
            obtain ⟨ts, e₀⟩ := p
            simp [hr] at h
            obtain ⟨-, rfl⟩ := h
            exact lift hr
        | true =>
          cases hd : v.done with
          | true =>
            simp [walkFn, hverr, hinfo, hreg, hd] at h
            exact Or.inr ⟨h.2.symm, v, List.mem_cons_self _ _, hverr, hd, i, hinfo, hreg⟩
          | false =>
            simp only [walkFn, hverr, hinfo, hreg, hd] at h
            cases hr : sumFiles rest with
            | none => simp [hr] at h
            | some p =>
              obtain ⟨ts, e₀⟩ := p
              simp [hr] at h
              obtain ⟨-, rfl⟩ := h
              exact lift hr

theorem sumFiles_all_errors (vs : List Visit) (h : ∀ u ∈ vs, u.err ≠ none) :
    sumFiles vs = some ([], none) := by
  induction vs with
  | nil => rfl
  | cons v rest ih =>
    cases he : v.err with
    | none => exact absurd he (h v (List.mem_cons_self _ _))
    | some e =>
      rw [sumFiles_cons_nil_ret (by simp [walkFn, he])]
      exact ih (fun u hu => h u (List.mem_cons_of_mem _ hu))

/-- C7 fails as stated: with `done` already closed, the callback returns nil for
a directory, and the walk goes on to the next entry, for which a hasher is still
started before the walk is canceled. -/
theorem walkFn_directory_ignores_done :
    walkFn true [100] (some ⟨FileKind.directory⟩) none = some ⟨none, none⟩ ∧
    (walkFn true [100] (some ⟨FileKind.directory⟩) none).bind Outcome.ret
      ≠ some walkCanceled ∧
    sumFiles [⟨[100], some ⟨FileKind.directory⟩, none, true⟩,
        ⟨[100, 47, 97], some ⟨FileKind.regular⟩, none, true⟩]
      = some ([[100, 47, 97]], some walkCanceled) := by
  decide

/-- C7, amended: for an entry visited while `done` is closed, if it is a regular
file reported without error the callback starts its hasher, checks the signal
and returns the error "Walk Canceled", and the walk stops there whatever entries
remain; if it is not a regular file, or is reported with an error, the callback
returns nil without checking the signal and the walk goes on with the remaining
entries. -/
theorem walkFn_cancel_on_regular (v : Visit) (rest : List Visit) (hd : v.done = true) :
    (∀ i : FileInfo, v.err = none → v.info = some i → i.IsRegular = true →
      walkFn v.done v.path v.info v.err = some ⟨some v.path, some walkCanceled⟩ ∧
      walkCanceled = GoError.errorsNew "Walk Canceled" ∧
      sumFiles (v :: rest) = some ([v.path], some walkCanceled)) ∧
    (∀ i : FileInfo, v.err = none → v.info = some i → i.IsRegular = false →
      (∀ d : Bool, walkFn d v.path v.info v.err = some ⟨none, none⟩) ∧
      sumFiles (v :: rest) = sumFiles rest) ∧
    (∀ e : GoError, v.err = some e →
      (∀ d : Bool, walkFn d v.path v.info v.err = some ⟨none, none⟩) ∧
      sumFiles (v :: rest) = sumFiles rest) := by
  refine ⟨?_, ?_, ?_⟩
  · intro i he hi hr
    have hw : walkFn v.done v.path v.info v.err = some ⟨some v.path, some walkCanceled⟩ := by
      simp [walkFn, he, hi, hr, hd]
    exact ⟨hw, rfl, by simp [sumFiles, hw]⟩
  · intro i he hi hr
    have hw : ∀ d : Bool, walkFn d v.path v.info v.err = some ⟨none, none⟩ := by
      intro d; simp [walkFn, he, hi, hr]
    exact ⟨hw, sumFiles_cons_nil_ret (hw _)⟩
  · intro e he
    have hw : ∀ d : Bool, walkFn d v.path v.info v.err = some ⟨none, none⟩ := by
      intro d; simp [walkFn, he]
    exact ⟨hw, sumFiles_cons_nil_ret (hw _)⟩

theorem walkFn_cancel_on_regular_witness :
    sumFiles [⟨[97], some ⟨FileKind.regular⟩, none, true⟩,
        ⟨[98], some ⟨FileKind.regular⟩, none, true⟩]
      = some ([[97]], some walkCanceled) :=
  ((walkFn_cancel_on_regular ⟨[97], some ⟨FileKind.regular⟩, none, true⟩
    [⟨[98], some ⟨FileKind.regular⟩, none, true⟩] rfl).1
    ⟨FileKind.regular⟩ rfl rfl rfl).2.2

/-- C8: for an entry the walk reports with an error, the callback returns nil
whatever `info` is (nil included: it is not read) and starts no hasher, so the
walk goes on with the remaining entries; the error the walker sends is then nil
or the cancellation error raised at a later entry reported without error, never
the traversal error; and when every entry of the walk is reported with an error
no hasher is started, the walker sends nil, and `MD5All`, receiving no result,
returns the empty map and a nil error. -/
theorem walkFn_swallows_traversal_error (v : Visit) (rest : List Visit) (e : GoError)
    (hv : v.err = some e) :
    (∀ (d : Bool) (info : Option FileInfo),
      walkFn d v.path info v.err = some ⟨none, none⟩) ∧
    sumFiles (v :: rest) = sumFiles rest ∧
    (∀ (tasks : List GoString) (werr : Option GoError),
      sumFiles (v :: rest) = some (tasks, werr) →
      werr = none ∨ (werr = some walkCanceled ∧
        ∃ u ∈ rest, u.err = none ∧ u.done = true ∧
          ∃ i, u.info = some i ∧ i.IsRegular = true)) ∧
    ((∀ u ∈ rest, u.err ≠ none) →
      sumFiles (v :: rest) = some ([], none) ∧
      ∀ (md5Sum : GoString → Digest) (readFile : GoString → GoString × Option GoError)
        (c : List result), Arrival md5Sum readFile [] c →
        MD5All c none = (some [], none)) := by
  have hw : ∀ (d : Bool) (info : Option FileInfo),
      walkFn d v.path info v.err = some ⟨none, none⟩ := by
    intro d info; simp [walkFn, hv]
  have hs : sumFiles (v :: rest) = sumFiles rest := sumFiles_cons_nil_ret (hw _ _)
  refine ⟨hw, hs, ?_, ?_⟩
  · intro tasks werr h
    rw [hs] at h
    exact sumFiles_error rest tasks werr h
  · intro hall
    refine ⟨by rw [hs]; exact sumFiles_all_errors rest hall, ?_⟩
    intro md5Sum readFile c hc
    have : c = [] := by
      unfold Arrival at hc
      simpa using hc
    subst this
    rfl

theorem walkFn_swallows_traversal_error_witness :
    sumFiles [⟨[100], none, some (GoError.pathError "lstat" [100] "permission denied"), false⟩,
        ⟨[100, 47, 97], none,
          some (GoError.pathError "lstat" [100, 47, 97] "input/output error"), true⟩]
      = some ([], none) ∧
    MD5All [] none = (some [], none) :=
  ⟨((walkFn_swallows_traversal_error
      ⟨[100], none, some (GoError.pathError "lstat" [100] "permission denied"), false⟩
      [⟨[100, 47, 97], none,
        some (GoError.pathError "lstat" [100, 47, 97] "input/output error"), true⟩]
      (GoError.pathError "lstat" [100] "permission denied") rfl).2.2.2 (by simp)).1,
   ((walkFn_swallows_traversal_error
      ⟨[100], none, some (GoError.pathError "lstat" [100] "permission denied"), false⟩
      [⟨[100, 47, 97], none,
        some (GoError.pathError "lstat" [100, 47, 97] "input/output error"), true⟩]
      (GoError.pathError "lstat" [100] "permission denied") rfl).2.2.2 (by simp)).2
      sumDigest echoFile [] (List.Perm.refl _)⟩

end BT
